import Mathlib

set_option allowUnsafeReducibility true
attribute [local semireducible] Rat.add Rat.mul Rat.inv Rat.sub Rat.div Rat.ofScientific

/-!
Shallow embedding of the PageRank program (src/pagerank.py): the corpus
graph, the transition model, the sampling estimator and the iterative
estimator.

Modelling conventions. A Python dict is insertion ordered, so a dict is
embedded as an association list whose keys are unique; a set of pages is
embedded as a duplicate-free list; real arithmetic is embedded as exact
rational arithmetic; the global random source is embedded as an explicit
stream of choices passed to the two estimators; a run that raises an
uncaught Python exception is embedded as the value none; the unbounded
while loop of the iterative estimator takes explicit fuel and returns
none when the fuel runs out.
-/

namespace PR

/-- Page identifiers are opaque hashable tokens; we model them as naturals. -/
abbrev Page := Nat

/-- A corpus: the Python dict mapping each page to the set of pages it
links to, keys in insertion order. -/
abbrev Corpus := List (Page × List Page)

/-- The key list of the corpus dict, in order (list(corpus.keys())). -/
def keys (c : Corpus) : List Page := c.map Prod.fst

/-- Dict lookup corpus[page]: some out-link set, or none when the key is
absent (a Python KeyError). -/
def findLinks? (c : Corpus) (p : Page) : Option (List Page) :=
  match c.find? (fun e => e.fst == p) with
  | some e => some e.snd
  | none => none

/-- Value lookup in a page-to-rational dict; 0 when the key is absent
(the lookups performed by the program are always on present keys). -/
def lookupQ (data : List (Page × ℚ)) (p : Page) : ℚ :=
  match data.find? (fun e => e.fst == p) with
  | some e => e.snd
  | none => 0

/-- Sum of the values of a page-to-rational dict. -/
def sumValues (data : List (Page × ℚ)) : ℚ := (data.map Prod.snd).sum

/-- transition_model (src/pagerank.py lines 51-71): the next-hop
distribution from a given page. If the out-link set of the page is empty,
every page of the corpus gets 1/N; otherwise a page in the out-link set
gets d/|out-links| + (1-d)/N and every other page gets (1-d)/N. Returns
none when the page is not a key of the corpus (KeyError on corpus[page]). -/
def transition_model (corpus : Corpus) (page : Page) (d : ℚ) :
    Option (List (Page × ℚ)) :=
  match findLinks? corpus page with
  | none => none
  | some links =>
    if links = [] then
      some (corpus.map (fun e => (e.fst, 1 / (corpus.length : ℚ))))
    else
      some (corpus.map (fun e =>
        (e.fst,
          if links.contains e.fst then
            d / (links.length : ℚ) + (1 - d) / (corpus.length : ℚ)
          else
            (1 - d) / (corpus.length : ℚ))))

/-- data[page] += 1 on the visit-counter dict. -/
def incVal (data : List (Page × ℚ)) (p : Page) : List (Page × ℚ) :=
  data.map (fun e => if e.fst == p then (e.fst, e.snd + 1) else e)

/-- The sampling loop of sample_pagerank (src/pagerank.py lines 91-94):
k iterations remain, i indexes the random stream, page is the current
page. Each iteration hands the weight list of the transition distribution
of the current page to the random stream (random.choices), which answers
with an index, taken modulo the page count; the drawn page is tallied and
becomes the current page. -/
def sampleLoop (corpus : Corpus) (d : ℚ) (oracle : Nat → List ℚ → Nat) :
    Nat → Nat → Page → List (Page × ℚ) → Option (List (Page × ℚ))
  | 0, _, _, data => some data
  | Nat.succ k, i, page, data =>
    match transition_model corpus page d with
    | none => none
    | some dist =>
      match (keys corpus).get? (oracle i (dist.map Prod.snd) % corpus.length) with
      | none => none
      | some next => sampleLoop corpus d oracle k (i + 1) next (incVal data next)

/-- sample_pagerank (src/pagerank.py lines 75-99). Counters start at 0 for
every page; the seed page is drawn uniformly (random.randrange, embedded
as a stream value seed taken modulo N, raising on an empty corpus); the
loop tallies n drawn pages; every counter is divided by n at the end
(ZeroDivisionError when n = 0 and the corpus is non-empty). The Python
parameter n is an int, so it is embedded as an integer; range(n) is empty
when n is negative. -/
def sample_pagerank (corpus : Corpus) (d : ℚ) (n : ℤ) (seed : Nat)
    (oracle : Nat → List ℚ → Nat) : Option (List (Page × ℚ)) :=
  match (keys corpus).get? (seed % corpus.length) with
  | none => none
  | some page0 =>
    match sampleLoop corpus d oracle n.toNat 0 page0
        (corpus.map (fun e => (e.fst, 0))) with
    | none => none
    | some counts =>
      if n = 0 then none
      else some (counts.map (fun e => (e.fst, e.snd / (n : ℚ))))

/-- The initial rank dict of iterate_pagerank (src/pagerank.py lines
114-115): every page starts at 1/N. -/
def initData (corpus : Corpus) : List (Page × ℚ) :=
  corpus.map (fun e => (e.fst, 1 / (corpus.length : ℚ)))

/-- The inner loop of a relaxation pass (src/pagerank.py lines 122-125):
sum over every page of the current rank dict whose out-link set contains
file of its current rank divided by its out-link count. The keys of the
rank dict are always keys of the corpus in the program, so the KeyError
branch (none) is unreachable and contributes nothing. -/
def innerSum (corpus : Corpus) (data : List (Page × ℚ)) (file : Page) : ℚ :=
  data.foldl (fun acc e =>
    match findLinks? corpus e.fst with
    | some links =>
      if links.contains file then acc + e.snd / (links.length : ℚ) else acc
    | none => acc) 0

/-- data[p] = v on the rank dict (assignment to an existing key keeps its
position). -/
def setVal (data : List (Page × ℚ)) (p : Page) (v : ℚ) : List (Page × ℚ) :=
  data.map (fun e => if e.fst == p then (e.fst, v) else e)

/-- One relaxation pass of iterate_pagerank (src/pagerank.py lines
121-126): for each key file of the rank dict in order, overwrite
data[file] with (1-d)/N + d * innerSum, where innerSum reads the CURRENT
dict, in which pages earlier in the order have already been overwritten
with their new values (in-place update). -/
def relaxPass (corpus : Corpus) (d : ℚ) (data : List (Page × ℚ)) :
    List (Page × ℚ) :=
  (data.map Prod.fst).foldl
    (fun st file =>
      setVal st file ((1 - d) / (corpus.length : ℚ) + d * innerSum corpus st file))
    data

/-- The while loop of iterate_pagerank (src/pagerank.py lines 117-128).
While change > 0.0001 or change < -0.0001: pick a random key of the rank
dict (random.randrange, embedded as the stream value at the step counter
taken modulo the key count, raising (none) on an empty dict), remember its
value, run one relaxation pass, and set change to the difference of the
monitored value across the pass. Fuel bounds the unbounded source loop;
none when it runs out. -/
def iterLoop (corpus : Corpus) (d : ℚ) (oracle : Nat → Nat) :
    Nat → Nat → ℚ → List (Page × ℚ) → Option (List (Page × ℚ))
  | 0, _, _, _ => none
  | Nat.succ fuel, step, change, data =>
    if change > 1 / 10000 ∨ change < -(1 / 10000) then
      match (data.map Prod.fst).get? (oracle step % data.length) with
      | none => none
      | some filename =>
        iterLoop corpus d oracle fuel (step + 1)
          (lookupQ (relaxPass corpus d data) filename - lookupQ data filename)
          (relaxPass corpus d data)
    else some data

/-- iterate_pagerank (src/pagerank.py lines 102-130): initialize every
rank to 1/N, set change to 1, and run the while loop. -/
def iterate_pagerank (corpus : Corpus) (d : ℚ) (oracle : Nat → Nat)
    (fuel : Nat) : Option (List (Page × ℚ)) :=
  iterLoop corpus d oracle fuel 0 1 (initData corpus)

/-- Modelled from the spec (section 4.3): the relaxation value the spec
prescribes for page p, namely (1-d)/N plus d times the sum over every
page q linking to p of rank(q)/|out-links(q)|, plus d times the sum over
every dangling page q of rank(q)/N. Used to compare the update of the
source against the formula of the spec. -/
def spec_new_rank (corpus : Corpus) (d : ℚ) (rank : List (Page × ℚ))
    (p : Page) : ℚ :=
  (1 - d) / (corpus.length : ℚ)
  + d * (corpus.foldl (fun acc e =>
      if e.snd.contains p then acc + lookupQ rank e.fst / (e.snd.length : ℚ)
      else acc) 0)
  + d * (corpus.foldl (fun acc e =>
      if e.snd = [] then acc + lookupQ rank e.fst / (corpus.length : ℚ)
      else acc) 0)

/-- Modelled from the spec (sections 4.3 and 9): a batch (snapshot)
relaxation pass, computing the new value of every page from the previous
values only, with the same per-page formula as the source pass. Used to
compare the in-place pass of the source against the snapshot pass the
spec prescribes. -/
def snapshot_pass (corpus : Corpus) (d : ℚ) (data : List (Page × ℚ)) :
    List (Page × ℚ) :=
  data.map (fun e =>
    (e.fst, (1 - d) / (corpus.length : ℚ) + d * innerSum corpus data e.fst))

/-- Maximum absolute change between two rank dicts, over the keys of the
first. -/
def maxAbsChange (old new : List (Page × ℚ)) : ℚ :=
  (old.map (fun e => |lookupQ new e.fst - e.snd|)).foldl max 0

/-! Concrete corpora used in the concrete theorems below. -/

/-- Two pages linking to each other. -/
def cAB : Corpus := [(0, [1]), (1, [0])]

/-- Two pages, page 1 dangling. -/
def cDang2 : Corpus := [(0, [1]), (1, [])]

/-- One dangling page. -/
def cDang1 : Corpus := [(0, [])]

/-- Three pages: 0 and 1 link to each other, 2 links to 0; page 2 has no
in-links, so its rank is constant from the second pass on. -/
def cD : Corpus := [(0, [1]), (1, [0]), (2, [0])]

/-- Three pages: 0 links to 1, 1 links to 0 and 2, 2 links to 0. -/
def c3 : Corpus := [(0, [1]), (1, [0, 2]), (2, [0])]

/-! Shared lemmas about the association-list operations. -/

theorem find_key_of_mem {c : Corpus} {p : Page} (h : p ∈ keys c) :
    ∃ e, c.find? (fun x => x.fst == p) = some e ∧ e.fst = p := by
  induction c with
  | nil => simp [keys] at h
  | cons e rest ih =>
    by_cases he : e.fst = p
    · exact ⟨e, by simp [List.find?_cons_of_pos, he], he⟩
    · have hm : p ∈ keys rest := by
        rcases List.mem_cons.mp (show p ∈ e.fst :: keys rest from h) with h1 | h1
        · exact absurd h1.symm he
        · exact h1
      rcases ih hm with ⟨e1, h1, h2⟩
      refine ⟨e1, ?_, h2⟩
      rw [List.find?_cons_of_neg _ (by simpa using he)]
      exact h1

theorem findLinks_of_mem {c : Corpus} {p : Page} (h : p ∈ keys c) :
    ∃ links, findLinks? c p = some links := by
  rcases find_key_of_mem h with ⟨e, h1, _⟩
  exact ⟨e.snd, by simp [findLinks?, h1]⟩

theorem lookupQ_map_val (g : Page → ℚ) {c : Corpus} {p : Page} (h : p ∈ keys c) :
    lookupQ (c.map (fun e => (e.fst, g e.fst))) p = g p := by
  induction c with
  | nil => simp [keys] at h
  | cons e rest ih =>
    by_cases he : e.fst = p
    · simp [lookupQ, List.find?_cons_of_pos, he]
    · have hm : p ∈ keys rest := by
        rcases List.mem_cons.mp (show p ∈ e.fst :: keys rest from h) with h1 | h1
        · exact absurd h1.symm he
        · exact h1
      have := ih hm
      simpa [lookupQ, List.find?_cons_of_neg, he] using this

theorem keys_map_val (g : Page → ℚ) (c : Corpus) :
    (c.map (fun e => (e.fst, g e.fst))).map Prod.fst = keys c := by
  simp [keys, List.map_map]

theorem sumValues_map_val (g : Page → ℚ) (c : Corpus) :
    sumValues (c.map (fun e => (e.fst, g e.fst))) = ((keys c).map g).sum := by
  simp only [sumValues, keys, List.map_map]
  rfl

theorem sum_map_const_q (l : List Page) (a : ℚ) :
    (l.map (fun _ => a)).sum = (l.length : ℚ) * a := by
  induction l with
  | nil => simp
  | cons x xs ih =>
    rw [List.map_cons, List.sum_cons, ih, List.length_cons]
    push_cast; ring

theorem sum_map_ite (l : List Page) (q : Page → Bool) (A B : ℚ) :
    (l.map (fun x => if q x then A + B else B)).sum
      = (l.countP q : ℚ) * A + (l.length : ℚ) * B := by
  induction l with
  | nil => simp
  | cons x xs ih =>
    by_cases h : q x
    · rw [List.map_cons, List.sum_cons, ih, if_pos h, List.countP_cons_of_pos _ _ h]
      push_cast [List.length_cons]; ring
    · rw [List.map_cons, List.sum_cons, ih, if_neg h,
        List.countP_cons_of_neg _ _ (by simpa using h)]
      push_cast [List.length_cons]; ring

theorem countP_contains_of_nodup {ks ls : List Page} (hk : ks.Nodup) (hl : ls.Nodup)
    (hsub : ∀ q ∈ ls, q ∈ ks) : (ks.countP fun q => ls.contains q) = ls.length := by
  rw [List.countP_eq_length_filter]
  have hperm : List.Perm (ks.filter fun q => ls.contains q) ls := by
    rw [List.perm_ext_iff_of_nodup (hk.filter _) hl]
    intro a
    simp only [List.mem_filter, List.contains, List.elem_iff]
    exact ⟨fun h => h.2, fun h => ⟨hsub a h, h⟩⟩
  exact hperm.length_eq

theorem sumValues_cons (e : Page × ℚ) (l : List (Page × ℚ)) :
    sumValues (e :: l) = e.snd + sumValues l := by simp [sumValues]

theorem sumValues_map_div (l : List (Page × ℚ)) (a : ℚ) :
    sumValues (l.map (fun e => (e.fst, e.snd / a))) = sumValues l / a := by
  induction l with
  | nil => simp [sumValues]
  | cons e rest ih =>
    rw [List.map_cons, sumValues_cons, sumValues_cons, ih, add_div]

theorem incVal_keys (data : List (Page × ℚ)) (p : Page) :
    (incVal data p).map Prod.fst = data.map Prod.fst := by
  induction data with
  | nil => rfl
  | cons e rest ih =>
    show (if e.fst == p then (e.fst, e.snd + 1) else e).fst
          :: (incVal rest p).map Prod.fst
        = e.fst :: rest.map Prod.fst
    rw [ih]
    congr 1
    by_cases h : e.fst == p <;> simp [h]

theorem incVal_of_not_mem {data : List (Page × ℚ)} {p : Page}
    (h : p ∉ data.map Prod.fst) : incVal data p = data := by
  induction data with
  | nil => rfl
  | cons e rest ih =>
    have h1 : ¬(e.fst = p) := fun he => h (by rw [List.map_cons, he]; exact List.mem_cons_self _ _)
    have h2 : p ∉ rest.map Prod.fst := fun hm => h (by rw [List.map_cons]; exact List.mem_cons_of_mem _ hm)
    show (if e.fst == p then (e.fst, e.snd + 1) else e) :: incVal rest p = e :: rest
    rw [ih h2, if_neg (by simpa using h1)]

theorem sumValues_incVal {data : List (Page × ℚ)} {p : Page}
    (hk : (data.map Prod.fst).Nodup) (hp : p ∈ data.map Prod.fst) :
    sumValues (incVal data p) = sumValues data + 1 := by
  induction data with
  | nil => simp at hp
  | cons e rest ih =>
    rw [List.map_cons, List.nodup_cons] at hk
    by_cases h : e.fst = p
    · have hrest : p ∉ rest.map Prod.fst := h ▸ hk.1
      show sumValues ((if e.fst == p then (e.fst, e.snd + 1) else e) :: incVal rest p)
          = sumValues (e :: rest) + 1
      rw [incVal_of_not_mem hrest, if_pos (by simpa using h), sumValues_cons,
        sumValues_cons]
      show e.snd + 1 + sumValues rest = e.snd + sumValues rest + 1
      ring
    · have hrest : p ∈ rest.map Prod.fst := by
        rcases List.mem_cons.mp (show p ∈ e.fst :: rest.map Prod.fst from hp) with h1 | h1
        · exact absurd h1.symm h
        · exact h1
      show sumValues ((if e.fst == p then (e.fst, e.snd + 1) else e) :: incVal rest p)
          = sumValues (e :: rest) + 1
      rw [if_neg (by simpa using h), sumValues_cons, sumValues_cons, ih hk.2 hrest]
      ring

/-- Tally invariant of the sampling loop: starting from a page of the
corpus and a counter dict keyed exactly by the corpus pages, the loop
always returns, keeps the key set, and adds exactly one visit per
iteration to the total of the counters. -/
theorem sampleLoop_tally (c : Corpus) (d : ℚ) (o : Nat → List ℚ → Nat)
    (hc : c ≠ []) (hk : (keys c).Nodup) :
    ∀ (k i : Nat) (page : Page) (data : List (Page × ℚ)),
      page ∈ keys c → data.map Prod.fst = keys c →
      ∃ counts, sampleLoop c d o k i page data = some counts ∧
        counts.map Prod.fst = keys c ∧
        sumValues counts = sumValues data + (k : ℚ) := by
  intro k
  induction k with
  | zero =>
    intro i page data hpage hdata
    exact ⟨data, rfl, hdata, by simp⟩
  | succ m ih =>
    intro i page data hpage hdata
    rcases findLinks_of_mem hpage with ⟨links, hfind⟩
    have htm : ∃ dist, transition_model c page d = some dist := by
      by_cases hnil : links = []
      · exact ⟨c.map (fun e => (e.fst, 1 / (c.length : ℚ))),
          by simp [transition_model, hfind, hnil]⟩
      · exact ⟨c.map (fun e => (e.fst,
            if links.contains e.fst then
              d / (links.length : ℚ) + (1 - d) / (c.length : ℚ)
            else (1 - d) / (c.length : ℚ))),
          by simp [transition_model, hfind, hnil]⟩
    rcases htm with ⟨dist, hdist⟩
    have hlen : (o i (dist.map Prod.snd)) % c.length < (keys c).length := by
      simpa [keys] using Nat.mod_lt _ (List.length_pos.mpr hc)
    have hget : ∃ next, (keys c).get? ((o i (dist.map Prod.snd)) % c.length)
        = some next ∧ next ∈ keys c :=
      ⟨_, List.get?_eq_get hlen, List.get_mem _ _ _⟩
    rcases hget with ⟨next, hget, hnextmem⟩
    have hnextdata : next ∈ data.map Prod.fst := by rw [hdata]; exact hnextmem
    have hkdata : (data.map Prod.fst).Nodup := by rw [hdata]; exact hk
    rcases ih (i + 1) next (incVal data next) hnextmem
        (by rw [incVal_keys, hdata]) with ⟨counts, h1, h2, h3⟩
    refine ⟨counts, ?_, h2, ?_⟩
    · show (match transition_model c page d with
        | none => none
        | some dist =>
          match (keys c).get? (o i (dist.map Prod.snd) % c.length) with
          | none => none
          | some next => sampleLoop c d o m (i + 1) next (incVal data next)) = some counts
      rw [hdist]
      show (match (keys c).get? (o i (dist.map Prod.snd) % c.length) with
          | none => none
          | some next => sampleLoop c d o m (i + 1) next (incVal data next)) = some counts
      rw [hget]
      exact h1
    · rw [h3, sumValues_incVal hkdata hnextdata]
      push_cast
      ring

/-- Exit characterization of the while loop of iterate_pagerank: whenever
the loop is entered (its condition holds on the current change) and
returns a vector, the vector is the output of a final relaxation pass and
the absolute change of the single monitored page across that final pass
is at most 0.0001. -/
theorem iterLoop_exit (c : Corpus) (d : ℚ) (o : Nat → Nat) :
    ∀ (fuel step : Nat) (change : ℚ) (data v : List (Page × ℚ)),
      (change > 1/10000 ∨ change < -(1/10000)) →
      iterLoop c d o fuel step change data = some v →
      ∃ prev f, f ∈ prev.map Prod.fst ∧ v = relaxPass c d prev ∧
        |lookupQ v f - lookupQ prev f| ≤ 1/10000 := by
  intro fuel
  induction fuel with
  | zero =>
    intro step change data v _ h
    exact absurd h (by simp [iterLoop])
  | succ k ih =>
    intro step change data v hcond h
    rw [show iterLoop c d o (Nat.succ k) step change data
        = (if change > 1/10000 ∨ change < -(1/10000) then
            match (data.map Prod.fst).get? (o step % data.length) with
            | none => none
            | some filename =>
              iterLoop c d o k (step + 1)
                (lookupQ (relaxPass c d data) filename - lookupQ data filename)
                (relaxPass c d data)
          else some data) from rfl, if_pos hcond] at h
    split at h
    · exact absurd h (by simp)
    · rename_i filename hget
      by_cases hc2 : (lookupQ (relaxPass c d data) filename - lookupQ data filename
            > 1/10000
          ∨ lookupQ (relaxPass c d data) filename - lookupQ data filename
            < -(1/10000))
      · exact ih (step + 1) _ _ v hc2 h
      · cases k with
        | zero => exact absurd h (by simp [iterLoop])
        | succ m =>
          rw [show iterLoop c d o (Nat.succ m) (step + 1)
              (lookupQ (relaxPass c d data) filename - lookupQ data filename)
              (relaxPass c d data)
            = (if lookupQ (relaxPass c d data) filename - lookupQ data filename
                  > 1/10000
                ∨ lookupQ (relaxPass c d data) filename - lookupQ data filename
                  < -(1/10000) then
                match ((relaxPass c d data).map Prod.fst).get?
                    (o (step + 1) % (relaxPass c d data).length) with
                | none => none
                | some f2 =>
                  iterLoop c d o m (step + 1 + 1)
                    (lookupQ (relaxPass c d (relaxPass c d data)) f2
                      - lookupQ (relaxPass c d data) f2)
                    (relaxPass c d (relaxPass c d data))
              else some (relaxPass c d data)) from rfl, if_neg hc2] at h
          push_neg at hc2
          refine ⟨data, filename, List.get?_mem hget, ?_, ?_⟩
          · exact (Option.some.inj h).symm
          · have hv : v = relaxPass c d data := (Option.some.inj h).symm
            rw [hv]
            exact abs_le.mpr ⟨by linarith [hc2.2], by linarith [hc2.1]⟩

/-! The claim theorems. -/

/-- C1: the spec requires every relaxation pass to add, for each page p,
the term d * (sum over dangling pages q of rank(q)/N); the source update
(src/pagerank.py lines 121-126) has no such term: on the corpus
{0 maps to {1}, 1 maps to {}} (page 1 dangling) with d = 1/2, starting at
the uniform vector, the pass of the source gives page 0 the new rank
(1-d)/N = 1/4, while the formula of the spec gives 3/8. -/
theorem C1_pass_drops_dangling_mass :
    lookupQ (relaxPass cDang2 (1/2) (initData cDang2)) 0 = 1/4 ∧
    spec_new_rank cDang2 (1/2) (initData cDang2) 0 = 3/8 ∧
    ((1 : ℚ)/4) ≠ 3/8 := by decide

/-- C2 counterexample: a terminating run of iterate on the corpus cD with
d = 1/2 whose random stream always monitors page 2 stops after the second
pass, even though the maximum absolute change across all pages in that
final pass is 1/24, far above 0.001: the loop does not stop because the
maximum change over all pages fell under the threshold. -/
theorem C2_counterexample :
    iterate_pagerank cD (1/2) (fun _ => 2) 10
        = some (relaxPass cD (1/2) (relaxPass cD (1/2) (initData cD))) ∧
    1/1000 < maxAbsChange (relaxPass cD (1/2) (initData cD))
        (relaxPass cD (1/2) (relaxPass cD (1/2) (initData cD))) := by decide

/-- C3 counterexample: two runs of iterate on the same corpus cD with the
same damping factor 1/2 but different behaviors of the random source (one
always monitors page 2, the other always monitors page 0) both terminate
and return different rank vectors: iterate is not deterministic in the
corpus and damping factor alone. -/
theorem C3_counterexample :
    iterate_pagerank cD (1/2) (fun _ => 2) 40
        ≠ iterate_pagerank cD (1/2) (fun _ => 0) 40 ∧
    (iterate_pagerank cD (1/2) (fun _ => 2) 40).isSome = true ∧
    (iterate_pagerank cD (1/2) (fun _ => 0) 40).isSome = true := by decide

/-- C3 amended: iterate is deterministic only once the behavior of the
random source is fixed: two runs on the same corpus and damping factor
whose random streams make the same choices at every step return identical
results. -/
theorem C3_deterministic_given_stream (c : Corpus) (d : ℚ) (o1 o2 : Nat → Nat)
    (fuel : Nat) (h : ∀ i, o1 i = o2 i) :
    iterate_pagerank c d o1 fuel = iterate_pagerank c d o2 fuel := by
  have ho : o1 = o2 := funext h
  rw [ho]

/-- C3 witness: the determinism theorem applied to the corpus cD, damping
factor 1/2 and a concrete random stream. -/
theorem C3_deterministic_given_stream_witness :
    iterate_pagerank cD (1/2) (fun _ => 2) 10
      = iterate_pagerank cD (1/2) (fun _ => 2) 10 :=
  C3_deterministic_given_stream cD (1/2) (fun _ => 2) (fun _ => 2) 10 (fun _ => rfl)

/-- C4 counterexample: on the corpus c3 with d = 1/2, one relaxation pass
of the source differs from the batch pass computed from a snapshot of the
previous values: the update is not a batch/simultaneous update. -/
theorem C4_counterexample :
    relaxPass c3 (1/2) (initData c3) ≠ snapshot_pass c3 (1/2) (initData c3) := by decide

/-- C4 amended: each pass overwrites the rank dict in place in key order,
so a page later in the order is computed from the already-updated value
of an earlier page: on c3 with d = 1/2, the new rank of page 1 equals
(1-d)/N + d * (new rank of page 0 / 1), and differs from the value the
snapshot (batch) pass assigns to page 1. -/
theorem C4_pass_reads_updated_values :
    lookupQ (relaxPass c3 (1/2) (initData c3)) 1
        = (1 - 1/2) / 3 + (1/2) * (lookupQ (relaxPass c3 (1/2) (initData c3)) 0 / 1) ∧
    lookupQ (relaxPass c3 (1/2) (initData c3)) 1
        ≠ lookupQ (snapshot_pass c3 (1/2) (initData c3)) 1 := by decide

/-- C5: on the one-page corpus whose only page is dangling, with d = 1/2,
iterate terminates and returns the vector {0 maps to 1/2}, whose sum 1/2
is not within 1e-3 of 1 (the docstring of iterate_pagerank promises the
values sum to 1, so this is a defect of the code, caused by the dropped
dangling-page mass of C1). -/
theorem C5_sum_not_one_on_dangling :
    iterate_pagerank cDang1 (1/2) (fun _ => 0) 10 = some [(0, 1/2)] ∧
    ¬ |sumValues [((0 : Page), (1/2 : ℚ))] - 1| ≤ 1/1000 := by decide

/-- C6 counterexample: sample_pagerank with the sample count n = -1 (which
is < 1) on a non-empty corpus does not fail: it returns the all-zero
vector (range(n) is empty and each counter 0 is divided by -1), a
degraded result whose values sum to 0. -/
theorem C6_counterexample :
    sample_pagerank cAB (1/2) (-1) 0 (fun _ _ => 0) = some [(0, 0), (1, 0)] ∧
    ((-1 : ℤ) < 1) := by decide

/-- C2 amended: when iterate returns a vector, the loop has stopped only
because the absolute change of the single monitored page (picked by the
random source each pass), between its value before and after the final
relaxation pass, was at most 0.0001; the returned vector is the output of
that final pass. Neither the threshold 0.001 nor the maximum change over
all pages is consulted. -/
theorem C2_stops_on_single_page_change (c : Corpus) (d : ℚ) (o : Nat → Nat)
    (fuel : Nat) (v : List (Page × ℚ))
    (h : iterate_pagerank c d o fuel = some v) :
    ∃ prev f, f ∈ prev.map Prod.fst ∧ v = relaxPass c d prev ∧
      |lookupQ v f - lookupQ prev f| ≤ 1/10000 :=
  iterLoop_exit c d o fuel 0 1 (initData c) v (by norm_num) h

/-- C2 witness: the single-page exit theorem applied to a terminating run
on the one-page corpus cDang1. -/
theorem C2_stops_on_single_page_change_witness :
    ∃ prev f, f ∈ prev.map Prod.fst ∧
      [((0 : Page), (1/2 : ℚ))] = relaxPass cDang1 (1/2) prev ∧
      |lookupQ [((0 : Page), (1/2 : ℚ))] f - lookupQ prev f| ≤ 1/10000 :=
  C2_stops_on_single_page_change cDang1 (1/2) (fun _ => 0) 10 [(0, 1/2)] (by decide)

/-- C6 amended: neither estimator validates its input explicitly. An
empty corpus makes both raise an uncaught runtime error (embedded as
none, from random.randrange on an empty range), and sample with n = 0
fails with an uncaught division error (none); but sample with a negative
sample count returns a degraded all-zero vector instead of failing. -/
theorem C6_no_validation (d : ℚ) (n : ℤ) (seed : Nat)
    (o1 : Nat → List ℚ → Nat) (o2 : Nat → Nat) (fuel : Nat)
    (c : Corpus) (hc : c ≠ []) :
    sample_pagerank [] d n seed o1 = none ∧
    iterate_pagerank [] d o2 fuel = none ∧
    sample_pagerank c d 0 seed o1 = none ∧
    sample_pagerank cAB d (-1) seed o1 = some [(0, 0), (1, 0)] := by
  refine ⟨?_, ?_, ?_, ?_⟩
  · simp [sample_pagerank, keys]
  · cases fuel with
    | zero => rfl
    | succ k =>
      show iterLoop [] d o2 (Nat.succ k) 0 1 (initData []) = none
      rw [show iterLoop [] d o2 (Nat.succ k) 0 1 (initData [])
          = (if (1 : ℚ) > 1/10000 ∨ (1 : ℚ) < -(1/10000) then
              match ((initData []).map Prod.fst).get? (o2 0 % (initData []).length) with
              | none => none
              | some filename =>
                iterLoop [] d o2 k 1
                  (lookupQ (relaxPass [] d (initData [])) filename
                    - lookupQ (initData []) filename)
                  (relaxPass [] d (initData []))
            else some (initData [])) from rfl,
        if_pos (by norm_num : (1 : ℚ) > 1/10000 ∨ (1 : ℚ) < -(1/10000))]
      rfl
  · have hlen : seed % c.length < (keys c).length := by
      simpa [keys] using Nat.mod_lt _ (List.length_pos.mpr hc)
    have hget : (keys c).get? (seed % c.length)
        = some ((keys c).get ⟨seed % c.length, hlen⟩) := List.get?_eq_get hlen
    show (match (keys c).get? (seed % c.length) with
      | none => none
      | some page0 =>
        match sampleLoop c d o1 (Int.toNat 0) 0 page0
            (c.map (fun e => (e.fst, 0))) with
        | none => none
        | some counts =>
          if (0 : ℤ) = 0 then none
          else some (counts.map (fun e => (e.fst, e.snd / ((0 : ℤ) : ℚ))))) = none
    rw [hget]
    show (match sampleLoop c d o1 0 0 ((keys c).get ⟨seed % c.length, hlen⟩)
        (c.map (fun e => (e.fst, 0))) with
      | none => none
      | some counts =>
        if (0 : ℤ) = 0 then none
        else some (counts.map (fun e => (e.fst, e.snd / ((0 : ℤ) : ℚ))))) = none
    rfl
  · have h2 : seed % cAB.length = 0 ∨ seed % cAB.length = 1 := by
      have hlt : seed % cAB.length < 2 := Nat.mod_lt _ (by decide)
      omega
    have hz : ∀ x : ℚ, (0 : ℚ) / x = 0 := fun x => zero_div x
    rcases h2 with h2 | h2 <;>
    · show (match (keys cAB).get? (seed % cAB.length) with
        | none => none
        | some page0 =>
          match sampleLoop cAB d o1 (Int.toNat (-1)) 0 page0
              (cAB.map (fun e => (e.fst, 0))) with
          | none => none
          | some counts =>
            if (-1 : ℤ) = 0 then none
            else some (counts.map (fun e => (e.fst, e.snd / ((-1 : ℤ) : ℚ))))) =
        some [(0, 0), (1, 0)]
      rw [h2]
      simp [sampleLoop, keys, cAB]

/-- C6 amended witness: the no-validation theorem applied at concrete
arguments. -/
theorem C6_no_validation_witness :
    sample_pagerank [] (1/2) 5 0 (fun _ _ => 0) = none ∧
    iterate_pagerank [] (1/2) (fun _ => 0) 3 = none ∧
    sample_pagerank cDang1 (1/2) 0 0 (fun _ _ => 0) = none ∧
    sample_pagerank cAB (1/2) (-1) 0 (fun _ _ => 0) = some [(0, 0), (1, 0)] :=
  C6_no_validation (1/2) 5 0 (fun _ _ => 0) (fun _ => 0) 3 cDang1 (by decide)

/-- C9: for every non-empty corpus with unique keys, damping factor,
sample count n at least 1, seed choice and behavior of the random source,
sample tallies exactly n visits (the counters start at 0, one page is
tallied per iteration, each drawn against the weights of the transition
distribution of the current page, and the seed page is not tallied), and
returns the counter dict with every value divided by n, keyed by exactly
the corpus pages, so the returned values sum to exactly 1. -/
theorem C9_sample_tallies_n_visits (c : Corpus) (d : ℚ) (n : ℤ) (seed : Nat)
    (o : Nat → List ℚ → Nat) (hc : c ≠ []) (hk : (keys c).Nodup) (hn : 1 ≤ n) :
    ∃ counts, sample_pagerank c d n seed o
        = some (counts.map (fun e => (e.fst, e.snd / (n : ℚ)))) ∧
      counts.map Prod.fst = keys c ∧
      sumValues counts = (n.toNat : ℚ) ∧
      sumValues (counts.map (fun e => (e.fst, e.snd / (n : ℚ)))) = 1 := by
  have hlen : seed % c.length < (keys c).length := by
    simpa [keys] using Nat.mod_lt _ (List.length_pos.mpr hc)
  have hget : (keys c).get? (seed % c.length)
      = some ((keys c).get ⟨seed % c.length, hlen⟩) := List.get?_eq_get hlen
  have hseedmem : (keys c).get ⟨seed % c.length, hlen⟩ ∈ keys c :=
    List.get_mem _ _ _
  have hdata0 : (c.map (fun e => (e.fst, (0 : ℚ)))).map Prod.fst = keys c :=
    keys_map_val (fun _ => (0 : ℚ)) c
  rcases sampleLoop_tally c d o hc hk n.toNat 0 _ _ hseedmem hdata0 with
    ⟨counts, h1, h2, h3⟩
  have hne : n ≠ 0 := by omega
  have hsum0 : sumValues (c.map (fun e => (e.fst, (0 : ℚ)))) = 0 := by
    rw [sumValues_map_val (fun _ => (0 : ℚ)) c]
    simp
  have hcount : sumValues counts = (n.toNat : ℚ) := by rw [h3, hsum0, zero_add]
  have hnq : ((n : ℚ)) ≠ 0 := Int.cast_ne_zero.mpr hne
  have htoNat : ((n.toNat : ℚ)) = (n : ℚ) := by
    exact_mod_cast congrArg (fun z : ℤ => (z : ℚ)) (Int.toNat_of_nonneg (by omega))
  refine ⟨counts, ?_, h2, hcount, ?_⟩
  · show (match (keys c).get? (seed % c.length) with
      | none => none
      | some page0 =>
        match sampleLoop c d o n.toNat 0 page0 (c.map (fun e => (e.fst, 0))) with
        | none => none
        | some cs =>
          if n = 0 then none
          else some (cs.map (fun e => (e.fst, e.snd / (n : ℚ))))) =
      some (counts.map (fun e => (e.fst, e.snd / (n : ℚ))))
    rw [hget]
    show (match sampleLoop c d o n.toNat 0 ((keys c).get ⟨seed % c.length, hlen⟩)
        (c.map (fun e => (e.fst, 0))) with
      | none => none
      | some cs =>
        if n = 0 then none
        else some (cs.map (fun e => (e.fst, e.snd / (n : ℚ))))) =
      some (counts.map (fun e => (e.fst, e.snd / (n : ℚ))))
    rw [h1]
    show (if n = 0 then none
      else some (counts.map (fun e => (e.fst, e.snd / (n : ℚ))))) =
      some (counts.map (fun e => (e.fst, e.snd / (n : ℚ))))
    rw [if_neg hne]
  · rw [sumValues_map_div, hcount, htoNat, div_self hnq]

/-- C9 witness: the tally theorem applied to the two-page corpus cAB with
n = 3 and a concrete random source. -/
theorem C9_sample_tallies_n_visits_witness :
    ∃ counts, sample_pagerank cAB (1/2) 3 0 (fun _ _ => 0)
        = some (counts.map (fun e => (e.fst, e.snd / ((3 : ℤ) : ℚ)))) ∧
      counts.map Prod.fst = keys cAB ∧
      sumValues counts = (((3 : ℤ).toNat : ℚ)) ∧
      sumValues (counts.map (fun e => (e.fst, e.snd / ((3 : ℤ) : ℚ)))) = 1 :=
  C9_sample_tallies_n_visits cAB (1/2) 3 0 (fun _ _ => 0) (by decide) (by decide)
    (by decide)

/-- C7: for every page p that is a key of the corpus and every damping
factor in (0,1), the transition model returns a distribution in which, if
the out-link set of p is empty, every page of the corpus gets 1/N, and
otherwise each page in the out-link set gets d/|out-links| + (1-d)/N and
every other page gets (1-d)/N. -/
theorem C7_transition_formula (c : Corpus) (p : Page) (d : ℚ)
    (hp : p ∈ keys c) (hd0 : 0 < d) (hd1 : d < 1) :
    ∃ links dist, findLinks? c p = some links ∧
      transition_model c p d = some dist ∧
      ∀ q ∈ keys c,
        lookupQ dist q =
          if links = [] then 1 / (c.length : ℚ)
          else if links.contains q then
            d / (links.length : ℚ) + (1 - d) / (c.length : ℚ)
          else (1 - d) / (c.length : ℚ) := by
  rcases findLinks_of_mem hp with ⟨links, hfind⟩
  by_cases hnil : links = []
  · refine ⟨links, c.map (fun e => (e.fst, 1 / (c.length : ℚ))), hfind, ?_, ?_⟩
    · simp [transition_model, hfind, hnil]
    · intro q hq
      rw [if_pos hnil]
      exact lookupQ_map_val (fun _ => 1 / (c.length : ℚ)) hq
  · refine ⟨links,
      c.map (fun e => (e.fst,
        if links.contains e.fst then
          d / (links.length : ℚ) + (1 - d) / (c.length : ℚ)
        else (1 - d) / (c.length : ℚ))), hfind, ?_, ?_⟩
    · simp [transition_model, hfind, hnil]
    · intro q hq
      rw [if_neg hnil]
      exact lookupQ_map_val
        (fun x => if links.contains x then
            d / (links.length : ℚ) + (1 - d) / (c.length : ℚ)
          else (1 - d) / (c.length : ℚ)) hq

/-- C7 witness: the transition formula theorem applied to the two-page
corpus cAB at page 0 with d = 1/2. -/
theorem C7_transition_formula_witness :
    ∃ links dist, findLinks? cAB 0 = some links ∧
      transition_model cAB 0 (1/2) = some dist ∧
      ∀ q ∈ keys cAB,
        lookupQ dist q =
          if links = [] then 1 / (cAB.length : ℚ)
          else if links.contains q then
            (1/2) / (links.length : ℚ) + (1 - 1/2) / (cAB.length : ℚ)
          else (1 - 1/2) / (cAB.length : ℚ) :=
  C7_transition_formula cAB 0 (1/2) (by decide) (by decide) (by decide)

/-- C8: for every non-empty well-formed corpus (unique keys, out-link
sets duplicate-free and inside the corpus), every page p that is a key of
the corpus and every damping factor in (0,1), the transition distribution
has every page of the corpus as a key, every value non-negative, and its
values sum to exactly 1, hence within 1e-9 of 1. -/
theorem C8_transition_sums_to_one (c : Corpus) (p : Page) (d : ℚ)
    (links : List Page) (hc : c ≠ []) (hd0 : 0 < d) (hd1 : d < 1)
    (hfind : findLinks? c p = some links) (hk : (keys c).Nodup)
    (hl : links.Nodup) (hsub : ∀ q ∈ links, q ∈ keys c) :
    ∃ dist, transition_model c p d = some dist ∧
      dist.map Prod.fst = keys c ∧
      (∀ e ∈ dist, 0 ≤ e.snd) ∧
      |sumValues dist - 1| ≤ 1 / 1000000000 := by
  have hN : (0 : ℚ) < (c.length : ℚ) := by
    exact_mod_cast List.length_pos.mpr hc
  have hNne : (c.length : ℚ) ≠ 0 := ne_of_gt hN
  have hlen : ((keys c).length : ℚ) = (c.length : ℚ) := by simp [keys]
  by_cases hnil : links = []
  · refine ⟨c.map (fun e => (e.fst, 1 / (c.length : ℚ))),
      by simp [transition_model, hfind, hnil],
      keys_map_val (fun _ => 1 / (c.length : ℚ)) c, ?_, ?_⟩
    · intro e he
      rcases List.mem_map.mp he with ⟨x, _, hx⟩
      have hv : e.snd = 1 / (c.length : ℚ) := by rw [← hx]
      rw [hv]; positivity
    · have hsum : sumValues (c.map (fun e => (e.fst, 1 / (c.length : ℚ)))) = 1 := by
        rw [sumValues_map_val (fun _ => 1 / (c.length : ℚ)) c, sum_map_const_q, hlen]
        field_simp
      rw [hsum]; norm_num
  · have hLn : links.length ≠ 0 := by simpa [List.length_eq_zero] using hnil
    have hLpos : (0 : ℚ) < (links.length : ℚ) := by
      exact_mod_cast Nat.pos_of_ne_zero hLn
    have hLne : (links.length : ℚ) ≠ 0 := ne_of_gt hLpos
    refine ⟨c.map (fun e => (e.fst,
        if links.contains e.fst then
          d / (links.length : ℚ) + (1 - d) / (c.length : ℚ)
        else (1 - d) / (c.length : ℚ))),
      by simp [transition_model, hfind, hnil],
      keys_map_val (fun x => if links.contains x then
          d / (links.length : ℚ) + (1 - d) / (c.length : ℚ)
        else (1 - d) / (c.length : ℚ)) c, ?_, ?_⟩
    · intro e he
      rcases List.mem_map.mp he with ⟨x, _, hx⟩
      by_cases hin : links.contains x.fst
      · have hv : e.snd = d / (links.length : ℚ) + (1 - d) / (c.length : ℚ) := by
          rw [← hx]; exact if_pos hin
        have h1 : (0 : ℚ) ≤ d / (links.length : ℚ) := by positivity
        have h2 : (0 : ℚ) ≤ (1 - d) / (c.length : ℚ) :=
          div_nonneg (by linarith) (le_of_lt hN)
        rw [hv]; linarith
      · have hv : e.snd = (1 - d) / (c.length : ℚ) := by
          rw [← hx]; exact if_neg hin
        rw [hv]; exact div_nonneg (by linarith) (le_of_lt hN)
    · have hsum : sumValues (c.map (fun e => (e.fst,
          if links.contains e.fst then
            d / (links.length : ℚ) + (1 - d) / (c.length : ℚ)
          else (1 - d) / (c.length : ℚ)))) = 1 := by
        rw [sumValues_map_val (fun x => if links.contains x then
              d / (links.length : ℚ) + (1 - d) / (c.length : ℚ)
            else (1 - d) / (c.length : ℚ)) c,
          sum_map_ite (keys c) (fun q => links.contains q)
            (d / (links.length : ℚ)) ((1 - d) / (c.length : ℚ)),
          countP_contains_of_nodup hk hl hsub, hlen]
        field_simp
      rw [hsum]; norm_num

/-- C8 witness: the distribution theorem applied to the two-page corpus
cAB at page 0 with d = 1/2. -/
theorem C8_transition_sums_to_one_witness :
    ∃ dist, transition_model cAB 0 (1/2) = some dist ∧
      dist.map Prod.fst = keys cAB ∧
      (∀ e ∈ dist, 0 ≤ e.snd) ∧
      |sumValues dist - 1| ≤ 1 / 1000000000 :=
  C8_transition_sums_to_one cAB 0 (1/2) [1] (by decide) (by decide) (by decide)
    (by decide) (by decide) (by decide) (by decide)

/-- C10: for every page p that is a key of the corpus, every non-empty
corpus and every damping factor in (0,1), every value of the transition
distribution is at least (1-d)/N and strictly positive: no page ever has
zero probability of being the next hop. -/
theorem C10_transition_positive (c : Corpus) (p : Page) (d : ℚ)
    (hc : c ≠ []) (hp : p ∈ keys c) (hd0 : 0 < d) (hd1 : d < 1) :
    ∃ dist, transition_model c p d = some dist ∧
      ∀ e ∈ dist, (1 - d) / (c.length : ℚ) ≤ e.snd ∧ 0 < e.snd := by
  have hN : (0 : ℚ) < (c.length : ℚ) := by
    exact_mod_cast List.length_pos.mpr hc
  have hbase : (0 : ℚ) < (1 - d) / (c.length : ℚ) := div_pos (by linarith) hN
  rcases findLinks_of_mem hp with ⟨links, hfind⟩
  by_cases hnil : links = []
  · refine ⟨c.map (fun e => (e.fst, 1 / (c.length : ℚ))),
      by simp [transition_model, hfind, hnil], ?_⟩
    intro e he
    rcases List.mem_map.mp he with ⟨x, _, hx⟩
    have hv : e.snd = 1 / (c.length : ℚ) := by rw [← hx]
    have h1 : (1 - d) / (c.length : ℚ) ≤ 1 / (c.length : ℚ) :=
      (div_le_div_iff_of_pos_right hN).mpr (by linarith)
    exact ⟨hv ▸ h1, hv ▸ div_pos one_pos hN⟩
  · have hL : (0 : ℚ) ≤ (links.length : ℚ) := by positivity
    refine ⟨c.map (fun e => (e.fst,
        if links.contains e.fst then
          d / (links.length : ℚ) + (1 - d) / (c.length : ℚ)
        else (1 - d) / (c.length : ℚ))),
      by simp [transition_model, hfind, hnil], ?_⟩
    intro e he
    rcases List.mem_map.mp he with ⟨x, _, hx⟩
    by_cases hin : links.contains x.fst
    · have hv : e.snd = d / (links.length : ℚ) + (1 - d) / (c.length : ℚ) := by
        rw [← hx]; exact if_pos hin
      have h1 : (1 - d) / (c.length : ℚ) ≤ e.snd := by
        rw [hv]
        have : (0 : ℚ) ≤ d / (links.length : ℚ) := div_nonneg (le_of_lt hd0) hL
        linarith
      exact ⟨h1, lt_of_lt_of_le hbase h1⟩
    · have hv : e.snd = (1 - d) / (c.length : ℚ) := by
        rw [← hx]; exact if_neg hin
      exact ⟨le_of_eq hv.symm, hv ▸ hbase⟩

/-- C10 witness: the positivity theorem applied to the corpus cDang2 (one
dangling page) at page 1 with d = 1/2. -/
theorem C10_transition_positive_witness :
    ∃ dist, transition_model cDang2 1 (1/2) = some dist ∧
      ∀ e ∈ dist, (1 - 1/2) / (cDang2.length : ℚ) ≤ e.snd ∧ 0 < e.snd :=
  C10_transition_positive cDang2 1 (1/2) (by decide) (by decide) (by decide) (by decide)

end PR
